import Mathlib

/-!
# SimpleXML (adchpp): a shallow embedding and its verified properties

The embedding follows `src/adchpp/SimpleXML.h`.  A `std::string` is a list of
characters, one `Char` for each `char` of the C++ string.  The tag tree is an
inductive type; `Tag::parent` is not stored in the node, the position of a node
is given by the path that leads to it from the root, and the cursor `current`
is such a path.  An iterator into a `vector` is its distance from `begin()`.

Functions that the header only declares (`escape`, `Tag::toXML`,
`Tag::fromXML`, ...) are modelled from the specification text and marked so.
-/

/-- The C++ `std::string`: a sequence of `char`. -/
abbrev string := List Char

namespace Util

/-- Modelled from the spec: `Util::emptyString` is declared in `Util.h`, which is
not among the sources; it is the empty text ("empty string when no default is
supplied"). -/
def emptyString : string := []

end Util

/-- The ways a call can fail: a `dcassert` that does not hold, a thrown
`SimpleXMLException`, the use of an iterator that points outside its container
(undefined in C++), and, for the parser model only, a recursion bound that is
used up. -/
inductive Failure where
  | assertion
  | SimpleXMLException
  | invalidIterator
  | outOfFuel
  deriving DecidableEq

/-- `std::string::find(char)`: the offset of the first occurrence, `none` for
`string::npos`. -/
def string.find (s : string) (c : Char) : Option Nat :=
  s.findIdx? (fun x => x == c)

/-- `std::string::find_first_of(const char*)`: the offset of the first character
that occurs in `chars`, `none` for `string::npos`. -/
def string.find_first_of (s : string) (chars : string) : Option Nat :=
  s.findIdx? (fun x => chars.contains x)

namespace SimpleXML

/-- `SimpleXML::needsEscape` (SimpleXML.h, lines 118-120). -/
def needsEscape (aString : string) (aAttrib : Bool) (aLoading : Bool) : Bool :=
  (if aLoading then string.find aString '&'
   else string.find_first_of aString (if aAttrib then "<&>'\"".toList else "<&>".toList)) != none

/-- The five entity forms named by the specification. -/
def entityForms : List string :=
  ["&amp;".toList, "&lt;".toList, "&gt;".toList, "&apos;".toList, "&quot;".toList]

/-- Modelled from the spec: the encoding half of `SimpleXML::escape`, whose body is
in SimpleXML.cpp (not among the sources).  One literal character is replaced by
its entity form: `&`, `<`, `>` always, the two quotes only when `aAttrib`. -/
def escapeChar (aAttrib : Bool) (c : Char) : string :=
  if c = '&' then "&amp;".toList
  else if c = '<' then "&lt;".toList
  else if c = '>' then "&gt;".toList
  else if aAttrib && c == Char.ofNat 39 then "&apos;".toList
  else if aAttrib && c == Char.ofNat 34 then "&quot;".toList
  else [c]

/-- Modelled from the spec: the encoding scan of `SimpleXML::escape` (body in
SimpleXML.cpp), left to right over the text. -/
def encodeText (aAttrib : Bool) : string → string
  | [] => []
  | c :: cs => escapeChar aAttrib c ++ encodeText aAttrib cs

/-- Modelled from the spec: recognition of an entity at the head of the text
during decoding (`SimpleXML::escape`, body in SimpleXML.cpp).  The result is the
literal character and the length of the entity form.  The five named forms are
recognised in either mode; the numeric `&#NN;` style, which the specification
leaves optional, is the parameter `numericEntity`, consulted only on a text
that starts with `&#`. -/
def entityAt (numericEntity : string → Option (Char × Nat)) : string → Option (Char × Nat)
  | [] => none
  | c :: rest =>
    if c = '&' then
      if "amp;".toList.isPrefixOf rest then some ('&', 5)
      else if "lt;".toList.isPrefixOf rest then some ('<', 4)
      else if "gt;".toList.isPrefixOf rest then some ('>', 4)
      else if "apos;".toList.isPrefixOf rest then some (Char.ofNat 39, 6)
      else if "quot;".toList.isPrefixOf rest then some (Char.ofNat 34, 6)
      else if "#".toList.isPrefixOf rest then numericEntity (c :: rest)
      else none
    else none

/-- Modelled from the spec: the decoding scan of `SimpleXML::escape` (body in
SimpleXML.cpp).  `skip` counts the characters of an entity form that are still
to be dropped; a recognised entity is replaced by its literal character and the
scan goes on behind it, any other character (an `&` that starts no recognised
entity included) is passed through unchanged. -/
def decodeText (numericEntity : string → Option (Char × Nat)) : Nat → string → string
  | _, [] => []
  | skip + 1, _ :: cs => decodeText numericEntity skip cs
  | 0, c :: cs =>
    match entityAt numericEntity (c :: cs) with
    | some (ch, len) => ch :: decodeText numericEntity (len - 1) cs
    | none => c :: decodeText numericEntity 0 cs

/-- Modelled from the spec: `SimpleXML::escape(aString, aAttrib, aLoading)`, declared
in SimpleXML.h line 112 with its body in SimpleXML.cpp.  The C++ function
rewrites `aString` in place; here the new text is returned. -/
def escape (numericEntity : string → Option (Char × Nat))
    (aString : string) (aAttrib : Bool) (aLoading : Bool) : string :=
  if aLoading then decodeText numericEntity 0 aString else encodeText aAttrib aString

/-- `SimpleXML::Tag` (SimpleXML.h, lines 122-173): children, attributes in
insertion order, name and data.  The parent pointer is the path to the node. -/
inductive Tag where
  | mk (children : List Tag) (attribs : List (string × string)) (name : string) (data : string)

namespace Tag

/-- Field `Tag::children`. -/
def children : Tag → List Tag
  | mk c _ _ _ => c

/-- Field `Tag::attribs`. -/
def attribs : Tag → List (string × string)
  | mk _ a _ _ => a

/-- Field `Tag::name`. -/
def name : Tag → string
  | mk _ _ n _ => n

/-- Field `Tag::data`. -/
def data : Tag → string
  | mk _ _ _ d => d

/-- Modelled from the spec: `CompareFirst<string,string>` is declared in `Util.h`,
which is not among the sources; it holds of a pair whose first component equals
the given key, compared character by character. -/
def CompareFirst (aName : string) (p : string × string) : Bool :=
  p.1 == aName

/-- `SimpleXML::Tag::getAttrib` (SimpleXML.h, lines 157-160): `find_if` over the
attributes, the default when the iterator is `attribs.end()`. -/
def getAttrib (t : Tag) (aName : string) (aDefault : string) : string :=
  match t.attribs.find? (CompareFirst aName) with
  | none => aDefault
  | some i => i.2

/-- The node reached from `t` by a path of child indices. -/
def descend (t : Tag) : List Nat → Option Tag
  | [] => some t
  | i :: rest =>
    match t.children[i]? with
    | none => none
    | some c => descend c rest

end Tag

end SimpleXML

/-- The members of `class SimpleXML` (SimpleXML.h, lines 175-189).  `current` is
`none` for a NULL pointer and otherwise the path from `root` to the current tag;
`currentChild` is the distance of the iterator from `current->children.begin()`. -/
structure SimpleXML where
  root : SimpleXML.Tag
  current : Option (List Nat)
  currentChild : Nat
  attribs : Int
  found : Bool

namespace SimpleXML

/-- The tag `current` points to, if it points to one.  A NULL pointer and a path that
leads to no tag of the tree (a dangling pointer) are treated alike. -/
def currentTag (s : SimpleXML) : Option Tag :=
  match s.current with
  | none => none
  | some path => s.root.descend path

/-- `SimpleXML::getData` (lines 68-71). -/
def getData (s : SimpleXML) : Except Failure string :=
  match s.currentTag with
  | none => .error .assertion
  | some cur => .ok cur.data

/-- `SimpleXML::resetCurrentChild` (lines 76-80). -/
def resetCurrentChild (s : SimpleXML) : Except Failure SimpleXML :=
  match s.currentTag with
  | none => .error .assertion
  | some _ => .ok { s with found := false, currentChild := 0 }

/-- `SimpleXML::checkChildSelected` (lines 183-186): both `dcassert`s. -/
def checkChildSelected (s : SimpleXML) : Except Failure Unit :=
  match s.currentTag with
  | none => .error .assertion
  | some cur => if s.currentChild = cur.children.length then .error .assertion else .ok ()

/-- The tag `*currentChild`. -/
def derefCurrentChild (s : SimpleXML) : Except Failure Tag :=
  match s.currentTag with
  | none => .error .assertion
  | some cur =>
    match cur.children[s.currentChild]? with
    | none => .error .invalidIterator
    | some c => .ok c

/-- `SimpleXML::getChildData` (lines 84-87). -/
def getChildData (s : SimpleXML) : Except Failure string := do
  checkChildSelected s
  let c ← derefCurrentChild s
  pure c.data

/-- `SimpleXML::getChildAttrib` (lines 89-92). -/
def getChildAttrib (s : SimpleXML) (aName : string) (aDefault : string) : Except Failure string := do
  checkChildSelected s
  let c ← derefCurrentChild s
  pure (c.getAttrib aName aDefault)

/-- `SimpleXML::getBoolChildAttrib` (lines 102-107). -/
def getBoolChildAttrib (s : SimpleXML) (aName : string) : Except Failure Bool := do
  checkChildSelected s
  let tmp ← getChildAttrib s aName Util.emptyString
  pure (decide (tmp.length > 0) && tmp.head? == some '1')

/-- Modelled from the spec: the indentation of `Tag::toXML` (body in SimpleXML.cpp),
a fixed unit of two spaces for each nesting level. -/
def indentText (indent : Nat) : string :=
  List.replicate (2 * indent) ' '

/-- Modelled from the spec: the text of the attributes on an opening tag (body of
`Tag::appendAttribString` in SimpleXML.cpp): in insertion order, each as
`name="value"` behind one space, the value escaped in attribute mode. -/
def Tag.attribText : List (string × string) → string
  | [] => []
  | (k, v) :: rest =>
    " ".toList ++ k ++ "=\"".toList ++ encodeText true v ++ "\"".toList ++ Tag.attribText rest

/-- Modelled from the spec: `Tag::appendAttribString(tmp)`, declared in SimpleXML.h
line 166 with its body in SimpleXML.cpp: the attribute text of the tag is
appended to `tmp`. -/
def Tag.appendAttribString (attribs : List (string × string)) (tmp : string) : string :=
  tmp ++ Tag.attribText attribs

mutual
/-- Modelled from the spec: `Tag::toXML(indent)`, declared in SimpleXML.h line 161
with its body in SimpleXML.cpp.  A tag without data and children is
self-closing; a tag without children carries its data inline, escaped in element
mode; a tag with children carries them, one level deeper, between its opening
and closing lines.  The line terminator, which the specification leaves open,
is `eol`.  Escaping is `escape` with `aLoading = false`, that is `encodeText`. -/
def Tag.toXML (eol : string) (indent : Nat) : Tag → string
  | .mk children attribs name data =>
    if children.isEmpty && data.isEmpty then
      Tag.appendAttribString attribs (indentText indent ++ "<".toList ++ name)
        ++ "/>".toList ++ eol
    else if children.isEmpty then
      Tag.appendAttribString attribs (indentText indent ++ "<".toList ++ name) ++ ">".toList
        ++ encodeText false data ++ "</".toList ++ name ++ ">".toList ++ eol
    else
      Tag.appendAttribString attribs (indentText indent ++ "<".toList ++ name) ++ ">".toList
        ++ eol ++ Tag.toXMLList eol (indent + 1) children
        ++ indentText indent ++ "</".toList ++ name ++ ">".toList ++ eol
/-- Modelled from the spec: the children part of `Tag::toXML` (body in
SimpleXML.cpp), the serializations of the sibling tags in order. -/
def Tag.toXMLList (eol : string) (indent : Nat) : List Tag → string
  | [] => []
  | c :: cs => Tag.toXML eol indent c ++ Tag.toXMLList eol indent cs
end

/-- `SimpleXML::toXML` (SimpleXML.h, line 110). -/
def toXML (eol : string) (s : SimpleXML) : string :=
  if !s.root.children.isEmpty then
    match s.root.children[0]? with
    | some c => c.toXML eol 0
    | none => Util.emptyString
  else Util.emptyString

/-! ## Reference definition of the pre-check -/

/-- The reference definition of the pre-check, in the words of the specification:
for encoding, presence of any of `<`, `&`, `>`, the quotes included only if
`isAttribute`; for decoding, presence of `&` alone. -/
def needsEscapeSpec (text : string) (isAttribute : Bool) (isDecoding : Bool) : Bool :=
  if isDecoding then text.any (fun c => c == '&')
  else text.any (fun c => c == '<' || c == '&' || c == '>' ||
    (isAttribute && (c == Char.ofNat 39 || c == Char.ofNat 34)))

/-! ## The parser, modelled from section 4.3 of the specification -/

/-- Modelled from the spec: the whitespace the parser of section 4.3 skips (body in
SimpleXML.cpp); the specification does not list the characters, they are taken
as space, tab, carriage return and line feed. -/
def isWhitespace (c : Char) : Bool :=
  c == ' ' || c == '\t' || c == '\r' || c == '\n'

/-- Modelled from the spec: "skip leading whitespace" of the parser (section 4.3,
body in SimpleXML.cpp). -/
def skipWhitespace (tmp : string) : string :=
  tmp.dropWhile isWhitespace

/-- Modelled from the spec: the parser's test for an expected text such as a closing
tag (section 4.3, body in SimpleXML.cpp): the text behind `expected` when `tmp`
starts with it, `none` otherwise. -/
def expect : string → string → Option string
  | [], tmp => some tmp
  | _ :: _, [] => none
  | e :: es, c :: cs => if c = e then expect es cs else none

/-- Modelled from the spec: a tag name is read "up to whitespace, `/`, or `>`". -/
def endsTagName (c : Char) : Bool :=
  isWhitespace c || c == '/' || c == '>'

/-- Modelled from the spec: an attribute name is read up to its `=`; whitespace, `/`
and `>`, which cannot be part of a name (section 6), end it as well. -/
def endsAttribName (c : Char) : Bool :=
  c == '=' || isWhitespace c || c == '/' || c == '>'

/-- Modelled from the spec: `Tag::loadAttribs`, declared in SimpleXML.h line 164 with
its body in SimpleXML.cpp (step 2 of section 4.3): zero or more pairs
`name="value"` or `name='value'`, each behind optional whitespace, the value
decoded in attribute mode.  The scan stops in front of `/` or `>`; the result is
the attribute list and the text from there on.  `fuel` bounds the number of
pairs. -/
def Tag.loadAttribs (numericEntity : string → Option (Char × Nat)) :
    Nat → string → Except Failure (List (string × string) × string)
  | 0, _ => .error .outOfFuel
  | fuel + 1, tmp =>
    match skipWhitespace tmp with
    | [] => .error .SimpleXMLException
    | c :: rest =>
      if c == '/' || c == '>' then .ok ([], c :: rest)
      else
        let key := (c :: rest).takeWhile (fun x => !endsAttribName x)
        match (c :: rest).dropWhile (fun x => !endsAttribName x) with
        | eq :: q :: value =>
          if eq == '=' && (q == Char.ofNat 34 || q == Char.ofNat 39) then
            match value.dropWhile (fun x => x != q) with
            | [] => .error .SimpleXMLException
            | _ :: behind =>
              match Tag.loadAttribs numericEntity fuel behind with
              | .error e => .error e
              | .ok (others, stop) =>
                .ok ((key, escape numericEntity (value.takeWhile (fun x => x != q)) true true)
                  :: others, stop)
          else .error .SimpleXMLException
        | _ => .error .SimpleXMLException

mutual
/-- Modelled from the spec: `Tag::fromXML`, declared in SimpleXML.h line 163 with its
body in SimpleXML.cpp; steps 1 to 5 of section 4.3 for one tag.  Skip leading
whitespace, expect `<`, read the name, load the attributes; a tag closed by `/>`
has no data and no children; behind `>` comes the content up to the closing
tag: a content that begins with `<` (whitespace ignored), that is with a tag
and not with the `</` of the closing tag, is a run of child tags up to the
matching closing tag; any other content, empty or all whitespace included, is
literal text up to the next `<`, decoded in element mode, and the matching
closing tag must follow.  The result is the tag and the text behind it.
`fuel` bounds the number of nested calls. -/
def Tag.fromXML (numericEntity : string → Option (Char × Nat)) :
    Nat → string → Except Failure (Tag × string)
  | 0, _ => .error .outOfFuel
  | fuel + 1, tmp =>
    match skipWhitespace tmp with
    | [] => .error .SimpleXMLException
    | lt :: s1 =>
      if lt != '<' then .error .SimpleXMLException
      else
        let name := s1.takeWhile (fun x => !endsTagName x)
        match Tag.loadAttribs numericEntity fuel (s1.dropWhile (fun x => !endsTagName x)) with
        | .error e => .error e
        | .ok (attribs, stop) =>
          match stop with
          | '/' :: '>' :: behind => .ok (Tag.mk [] attribs name [], behind)
          | '>' :: content =>
            if (skipWhitespace content).head? == some '<'
                && !((skipWhitespace content).tail.head? == some '/') then
              match Tag.fromXMLChildren numericEntity fuel (some name) content with
              | .error e => .error e
              | .ok (children, behind) => .ok (Tag.mk children attribs name [], behind)
            else
              match expect ("</".toList ++ name ++ ">".toList)
                  (content.dropWhile (fun x => x != '<')) with
              | none => .error .SimpleXMLException
              | some behind =>
                .ok (Tag.mk [] attribs name
                  (escape numericEntity (content.takeWhile (fun x => x != '<')) false true),
                  behind)
          | _ => .error .SimpleXMLException
/-- Modelled from the spec: the caller of step 5 of section 4.3, which "keeps
scanning for sibling tags until the enclosing scope ends or input is
exhausted".  Text in front of the next `<` is skipped.  Inside the tag `name`
(`closing = some name`) the run ends at the closing tag `</name>`, any other
closing tag and the end of the input are errors; at the root (`closing = none`,
the `isRoot` case) the run ends with the input and any closing tag is an
error. -/
def Tag.fromXMLChildren (numericEntity : string → Option (Char × Nat)) :
    Nat → Option string → string → Except Failure (List Tag × string)
  | 0, _, _ => .error .outOfFuel
  | fuel + 1, closing, tmp =>
    match tmp.dropWhile (fun x => x != '<') with
    | [] =>
      match closing with
      | none => .ok ([], [])
      | some _ => .error .SimpleXMLException
    | lt :: s1 =>
      if s1.head? == some '/' then
        match closing with
        | none => .error .SimpleXMLException
        | some name =>
          match expect (name ++ ">".toList) s1.tail with
          | none => .error .SimpleXMLException
          | some behind => .ok ([], behind)
      else
        match Tag.fromXML numericEntity fuel (lt :: s1) with
        | .error e => .error e
        | .ok (child, behind) =>
          match Tag.fromXMLChildren numericEntity fuel closing behind with
          | .error e => .error e
          | .ok (others, stop) => .ok (child :: others, stop)
end

/-- Modelled from the spec: `SimpleXML::fromXML`, declared in SimpleXML.h line 109 with
its body in SimpleXML.cpp: "delegates to the Parser starting at `root`,
replacing any existing tree under `root`".  The cursor is put back on `root`
with the child scan reset, since the tags it pointed to are gone.  The fuel is
the size of the input and two: every nested call but the first consumes at
least one character, so that this bound is never used up. -/
def fromXML (numericEntity : string → Option (Char × Nat)) (s : SimpleXML) (aXML : string) :
    Except Failure SimpleXML :=
  match Tag.fromXMLChildren numericEntity (aXML.length + 2) none aXML with
  | .error e => .error e
  | .ok (children, _) =>
    .ok { root := Tag.mk children s.root.attribs s.root.name s.root.data,
          current := some [], currentChild := 0, attribs := s.attribs, found := false }

/-! ## The trees of the round trip -/

/-- The reserved characters of the specification: `&`, `<`, `>` and the two quotes. -/
def isReserved (c : Char) : Bool :=
  c == '&' || c == '<' || c == '>' || c == Char.ofNat 39 || c == Char.ofNat 34

/-- A text free of reserved characters. -/
def isPlain (text : string) : Bool :=
  text.all (fun c => !isReserved c)

/-- A tag name of the data model: not empty (section 3), free of whitespace and of
`/` (section 6), and free of reserved characters, `<` and `>` among them. -/
def isTagName (name : string) : Bool :=
  !name.isEmpty && name.all (fun c => !isReserved c && !isWhitespace c && c != '/')

/-- An attribute name of the data model: free of whitespace, of `/` and of `=`
(section 6), and free of reserved characters, `<` and `>` among them. -/
def isAttribName (key : string) : Bool :=
  key.all (fun c => !isReserved c && !isWhitespace c && c != '/' && c != '=')

mutual
/-- The trees of the round trip, the trees of the data model whose text is free of
reserved characters: every tag name satisfies `isTagName`, every attribute
name `isAttribName`, attribute values and data are free of reserved
characters. -/
def Tag.wellFormed : Tag → Bool
  | .mk children attribs name data =>
    isTagName name && attribs.all (fun p => isAttribName p.1 && isPlain p.2) && isPlain data
      && Tag.wellFormedList children
/-- All tags of a list are `wellFormed`. -/
def Tag.wellFormedList : List Tag → Bool
  | [] => true
  | c :: cs => Tag.wellFormed c && Tag.wellFormedList cs
end

mutual
/-- The tag as the serialized text shows it: the data of a tag with children is not
written by `toXML` and is dropped. -/
def Tag.normal : Tag → Tag
  | .mk children attribs name data =>
    .mk (Tag.normalList children) attribs name (if children.isEmpty then data else [])
/-- `normal` on each tag of a list. -/
def Tag.normalList : List Tag → List Tag
  | [] => []
  | c :: cs => Tag.normal c :: Tag.normalList cs
end

mutual
/-- A recursion bound that suffices to parse the serialization of a tag. -/
def Tag.need : Tag → Nat
  | .mk children attribs _ _ => attribs.length + 2 + Tag.needList children
/-- A recursion bound that suffices to parse the serializations of a list of tags
and the closing tag behind them. -/
def Tag.needList : List Tag → Nat
  | [] => 1
  | c :: cs => Tag.need c + Tag.needList cs + 1
end

/-! ## The cursor and the tree-building calls, modelled from section 4.4 of the specification -/

/-- Modelled from the spec: the constructor `SimpleXML(int numAttribs)`, declared in
SimpleXML.h line 38 with its body in SimpleXML.cpp: a synthetic root with the
empty name and no children, `current` at the root, the child scan at its
start. -/
def init (numAttribs : Int) : SimpleXML :=
  { root := Tag.mk [] [] [] [], current := some [], currentChild := 0,
    attribs := numAttribs, found := false }

/-- Modelled from the spec: the Tag Node operation `addAttribute(key, value)` of
section 4.1 (the `push_back` on `Tag::attribs`, in SimpleXML.cpp): a new pair
is appended, an existing key is neither looked for nor replaced. -/
def Tag.addAttribute (t : Tag) (key value : string) : Tag :=
  .mk t.children (t.attribs ++ [(key, value)]) t.name t.data

/-- Modelled from the spec: the Tag Node operation `addChild(name, data)` of section
4.1 (in SimpleXML.cpp): a new tag without attributes and children is appended
to the children. -/
def Tag.addChild (t : Tag) (name data : string) : Tag :=
  .mk (t.children ++ [Tag.mk [] [] name data]) t.attribs t.name t.data

/-- The tree in which the tag at the end of the path is replaced by `f` of it; a
path that leads to no tag leaves the tree as it is.  This is the write through
a `Tag::Ptr`. -/
def Tag.modify (f : Tag → Tag) : List Nat → Tag → Tag
  | [], t => f t
  | i :: rest, t =>
    match t.children[i]? with
    | none => t
    | some c => .mk (t.children.set i (Tag.modify f rest c)) t.attribs t.name t.data

/-- Modelled from the spec: `SimpleXML::addTag(aName, aData)`, declared in SimpleXML.h
line 41 with its body in SimpleXML.cpp: "creates a child of `current` holding
`data`, without moving the cursor.  Fails if `current` is undefined".  The
result is the outcome of the call and the document after it. -/
def addTag (s : SimpleXML) (aName aData : string) : Except Failure Unit × SimpleXML :=
  match s.current with
  | none => (.error .SimpleXMLException, s)
  | some path =>
    match s.root.descend path with
    | none => (.error .SimpleXMLException, s)
    | some _ =>
      (.ok (), { s with root := Tag.modify (fun t => t.addChild aName aData) path s.root })

/-- Modelled from the spec: `SimpleXML::addAttrib(aName, aData)` for a text value,
declared in SimpleXML.h line 54 with its body in SimpleXML.cpp: the pair is
attached to `current`; the call fails when there is no such tag.  The result
is the outcome of the call and the document after it. -/
def addAttrib (s : SimpleXML) (aName aData : string) : Except Failure Unit × SimpleXML :=
  match s.current with
  | none => (.error .SimpleXMLException, s)
  | some path =>
    match s.root.descend path with
    | none => (.error .SimpleXMLException, s)
    | some _ =>
      (.ok (), { s with root := Tag.modify (fun t => t.addAttribute aName aData) path s.root })

/-- Modelled from the spec: `SimpleXML::stepIn`, declared in SimpleXML.h line 73 with
its body in SimpleXML.cpp: "moves `current` to its first child if one exists;
fails if `current` has no children".  The child scan is reset, as "whenever
the cursor repositions".  The result is the outcome of the call and the
document after it; a failing call leaves the document as it was. -/
def stepIn (s : SimpleXML) : Except Failure Unit × SimpleXML :=
  match s.current with
  | none => (.error .SimpleXMLException, s)
  | some path =>
    match s.root.descend path with
    | none => (.error .SimpleXMLException, s)
    | some cur =>
      if cur.children.isEmpty then (.error .SimpleXMLException, s)
      else (.ok (), { s with current := some (path ++ [0]), currentChild := 0, found := false })

/-- Modelled from the spec: `SimpleXML::stepOut`, declared in SimpleXML.h line 74 with
its body in SimpleXML.cpp: "moves `current` to its parent; fails if `current`
is already `root`".  The root is the empty path, the parent of a tag is the
path without its last step.  The child scan is reset, as "whenever the cursor
repositions".  The result is the outcome of the call and the document after
it; a failing call leaves the document as it was. -/
def stepOut (s : SimpleXML) : Except Failure Unit × SimpleXML :=
  match s.current with
  | none => (.error .SimpleXMLException, s)
  | some [] => (.error .SimpleXMLException, s)
  | some (i :: rest) =>
    (.ok (), { s with current := some (i :: rest).dropLast, currentChild := 0, found := false })

/-- Modelled from the spec: `SimpleXML::findChild(aName)`, declared in SimpleXML.h line
82 with its body in SimpleXML.cpp.  The scan goes forward from the child-scan
position, from just behind it when the position is a match of an earlier call
(`found`), to the first child named `aName`; on a match the position is the
match and `found` is set, on exhaustion the position is the end and `found` is
cleared.  The result is whether a match was found, and the document after the
call. -/
def findChild (s : SimpleXML) (aName : string) : Except Failure Bool × SimpleXML :=
  match s.currentTag with
  | none => (.error .assertion, s)
  | some cur =>
    let start :=
      if s.found && decide (s.currentChild < cur.children.length) then s.currentChild + 1
      else s.currentChild
    match (cur.children.drop start).findIdx? (fun c => c.name == aName) with
    | some i => (.ok true, { s with currentChild := start + i, found := true })
    | none => (.ok false, { s with currentChild := cur.children.length, found := false })

/-! ## Theorems -/

theorem find_ne_none_iff (s : string) (c : Char) : (string.find s c != none) = true ↔ c ∈ s := by
  unfold string.find
  cases h : List.findIdx? (fun x => x == c) s with
  | none =>
    rw [List.findIdx?_eq_none_iff] at h
    constructor
    · intro h'; simp at h'
    · intro hc; have := h c hc; simp at this
  | some i =>
    constructor
    · intro _
      by_contra hc
      have : List.findIdx? (fun x => x == c) s = none := by
        rw [List.findIdx?_eq_none_iff]
        intro x hx
        simp only [beq_eq_false_iff_ne, ne_eq]
        rintro rfl
        exact hc hx
      rw [this] at h; cases h
    · intro _; rfl

theorem find_first_of_ne_none_iff (s chars : string) :
    (string.find_first_of s chars != none) = true ↔ ∃ c ∈ s, c ∈ chars := by
  unfold string.find_first_of
  cases h : List.findIdx? (fun x => chars.contains x) s with
  | none =>
    rw [List.findIdx?_eq_none_iff] at h
    constructor
    · intro h'; simp at h'
    · rintro ⟨c, hc, hm⟩
      have := h c hc
      simp at this
      exact absurd hm this
  | some i =>
    constructor
    · intro _
      by_contra hc
      have : List.findIdx? (fun x => chars.contains x) s = none := by
        rw [List.findIdx?_eq_none_iff]
        intro x hx
        by_contra hx'
        simp at hx'
        exact hc ⟨x, hx, hx'⟩
      rw [this] at h; cases h
    · intro _; rfl

/-! ## Theorems: the pre-check has no false negative; attribute lookup -/

theorem mem_of_infix_cons {c : Char} {e s : string} (h : (c :: e) <:+: s) : c ∈ s := by
  obtain ⟨pre, post, rfl⟩ := h
  simp

theorem amp_mem_of_entityForm {e s : string} (he : e ∈ entityForms) (h : e <:+: s) : '&' ∈ s := by
  simp only [entityForms, List.mem_cons, List.mem_singleton, List.not_mem_nil, or_false] at he
  rcases he with rfl | rfl | rfl | rfl | rfl <;> exact mem_of_infix_cons h

/-- C1: `needsEscape` never gives a false negative.  When encoding, a text that
contains `&`, `<` or `>` (or, in attribute mode, one of the two quotes) is
flagged; when decoding, a text that contains one of the five entity forms is
flagged. -/
theorem needsEscape_no_false_negative (aString : string) (aAttrib aLoading : Bool)
    (h : (aLoading = false ∧ ∃ c ∈ aString, c = '&' ∨ c = '<' ∨ c = '>' ∨
            (aAttrib = true ∧ (c = Char.ofNat 39 ∨ c = Char.ofNat 34))) ∨
         (aLoading = true ∧ ∃ e ∈ entityForms, e <:+: aString)) :
    needsEscape aString aAttrib aLoading = true := by
  rcases h with ⟨rfl, c, hc, hspecial⟩ | ⟨rfl, e, he, hinf⟩
  · simp only [needsEscape, Bool.false_eq_true, if_false]
    rw [find_first_of_ne_none_iff]
    refine ⟨c, hc, ?_⟩
    rcases hspecial with rfl | rfl | rfl | ⟨rfl, rfl | rfl⟩
    · cases aAttrib <;> decide
    · cases aAttrib <;> decide
    · cases aAttrib <;> decide
    · decide
    · decide
  · simp only [needsEscape, if_true]
    rw [find_ne_none_iff]
    exact amp_mem_of_entityForm he hinf

/-- Witness of C1 in both directions: `a<b` when encoding, `x&quot;y` when decoding. -/
theorem needsEscape_no_false_negative_witness :
    needsEscape "a<b".toList false false = true ∧ needsEscape "x&quot;y".toList false true = true :=
  ⟨needsEscape_no_false_negative "a<b".toList false false
      (Or.inl ⟨rfl, '<', by decide, Or.inr (Or.inl rfl)⟩),
   needsEscape_no_false_negative "x&quot;y".toList false true
      (Or.inr ⟨rfl, "&quot;".toList, by decide, ⟨"x".toList, "y".toList, by decide⟩⟩)⟩

theorem getAttrib_eq_default_of_absent (t : Tag) (aName aDefault : string)
    (h : ∀ p ∈ t.attribs, p.1 ≠ aName) : t.getAttrib aName aDefault = aDefault := by
  unfold Tag.getAttrib
  have : t.attribs.find? (Tag.CompareFirst aName) = none := by
    rw [List.find?_eq_none]
    intro p hp
    simp [Tag.CompareFirst, h p hp]
  rw [this]

/-- C2: attribute lookup returns the value of the earliest pair whose key equals
the key asked for: when the attribute list is `pre ++ (aName, v) :: post` and no
pair of `pre` has the key `aName`, `getAttrib aName aDefault` is `v`, whatever
follows in `post`. -/
theorem getAttrib_first_match (t : Tag) (aName aDefault v : string)
    (pre post : List (string × string))
    (hsplit : t.attribs = pre ++ (aName, v) :: post)
    (hpre : ∀ p ∈ pre, p.1 ≠ aName) :
    t.getAttrib aName aDefault = v := by
  unfold Tag.getAttrib
  rw [hsplit]
  clear hsplit
  have : (pre ++ (aName, v) :: post).find? (Tag.CompareFirst aName) = some (aName, v) := by
    induction pre with
    | nil => simp [Tag.CompareFirst]
    | cons p pre ih =>
      have hp : p.1 ≠ aName := hpre p (List.mem_cons_self _ _)
      have hrest : ∀ q ∈ pre, q.1 ≠ aName := fun q hq => hpre q (List.mem_cons_of_mem _ hq)
      simp only [List.cons_append, List.find?_cons]
      have : Tag.CompareFirst aName p = false := by simp [Tag.CompareFirst, hp]
      rw [this]
      exact ih hrest
  rw [this]

/-- Witness of C2, the instance of the specification: with the attributes
`[("a","1"),("a","2")]` the lookup of `a` gives `1`. -/
theorem getAttrib_first_match_witness :
    (Tag.mk [] [("a".toList, "1".toList), ("a".toList, "2".toList)] "t".toList []).getAttrib
      "a".toList Util.emptyString = "1".toList :=
  getAttrib_first_match _ "a".toList Util.emptyString "1".toList [] [("a".toList, "2".toList)]
    rfl (by simp)

theorem getChildAttrib_of_selected (s : SimpleXML) (cur child : Tag) (aName aDefault : string)
    (hcur : s.currentTag = some cur) (hchild : cur.children[s.currentChild]? = some child) :
    s.getChildAttrib aName aDefault = .ok (child.getAttrib aName aDefault) := by
  have hlt : s.currentChild < cur.children.length := by
    by_contra hge
    rw [List.getElem?_eq_none (by omega)] at hchild
    cases hchild
  have hne : s.currentChild ≠ cur.children.length := by omega
  simp [getChildAttrib, checkChildSelected, derefCurrentChild, hcur, hchild, hne, bind, Except.bind,
    pure, Except.pure]

theorem getChildData_of_selected (s : SimpleXML) (cur child : Tag)
    (hcur : s.currentTag = some cur) (hchild : cur.children[s.currentChild]? = some child) :
    s.getChildData = .ok child.data := by
  have hlt : s.currentChild < cur.children.length := by
    by_contra hge
    rw [List.getElem?_eq_none (by omega)] at hchild
    cases hchild
  have hne : s.currentChild ≠ cur.children.length := by omega
  simp [getChildData, checkChildSelected, derefCurrentChild, hcur, hchild, hne, bind, Except.bind,
    pure, Except.pure]

/-- C3: a missing attribute key is not an error.  On a tag none of whose
attributes has the key, `getAttrib` returns the default it was given; on a
selected child that lacks the key, `getChildAttrib` succeeds with the default,
and with the empty text when the default is `Util::emptyString`. -/
theorem missing_key_gives_default (aName aDefault : string) :
    (∀ t : Tag, (∀ p ∈ t.attribs, p.1 ≠ aName) → t.getAttrib aName aDefault = aDefault) ∧
    (∀ (s : SimpleXML) (cur child : Tag), s.currentTag = some cur →
      cur.children[s.currentChild]? = some child →
      (∀ p ∈ child.attribs, p.1 ≠ aName) →
      s.getChildAttrib aName aDefault = .ok aDefault ∧
      s.getChildAttrib aName Util.emptyString = .ok []) := by
  refine ⟨fun t h => getAttrib_eq_default_of_absent t aName aDefault h, ?_⟩
  intro s cur child hcur hchild habs
  rw [getChildAttrib_of_selected s cur child aName aDefault hcur hchild,
    getChildAttrib_of_selected s cur child aName Util.emptyString hcur hchild,
    getAttrib_eq_default_of_absent child aName aDefault habs,
    getAttrib_eq_default_of_absent child aName Util.emptyString habs]
  exact ⟨rfl, rfl⟩

/-- Witness of C3: a tag with the single attribute `x`, asked for `y`, alone and
as the selected child of the root. -/
theorem missing_key_gives_default_witness :
    (Tag.mk [] [("x".toList, "1".toList)] "c".toList []).getAttrib "y".toList "d".toList
      = "d".toList ∧
    SimpleXML.getChildAttrib
      ⟨Tag.mk [Tag.mk [] [("x".toList, "1".toList)] "c".toList []] [] [] [], some [], 0, 0, false⟩
      "y".toList "d".toList = .ok "d".toList :=
  ⟨(missing_key_gives_default "y".toList "d".toList).1 _ (by decide),
   ((missing_key_gives_default "y".toList "d".toList).2
      ⟨Tag.mk [Tag.mk [] [("x".toList, "1".toList)] "c".toList []] [] [] [], some [], 0, 0, false⟩
      (Tag.mk [Tag.mk [] [("x".toList, "1".toList)] "c".toList []] [] [] [])
      (Tag.mk [] [("x".toList, "1".toList)] "c".toList []) rfl rfl (by decide)).1⟩

/-! ## Theorems: escaping and unescaping -/

theorem decodeText_skip (ne : string → Option (Char × Nat)) (pre rest : string) :
    decodeText ne pre.length (pre ++ rest) = decodeText ne 0 rest := by
  induction pre with
  | nil => rfl
  | cons c pre ih => simpa [decodeText] using ih

theorem decodeText_plain (ne : string → Option (Char × Nat)) (c : Char) (rest : string)
    (hc : c ≠ '&') : decodeText ne 0 (c :: rest) = c :: decodeText ne 0 rest := by
  simp [decodeText, entityAt, hc]

theorem decodeText_entity (ne : string → Option (Char × Nat)) (c ch : Char) (len : Nat)
    (pre rest : string) (h : entityAt ne (c :: (pre ++ rest)) = some (ch, len))
    (hlen : pre.length = len - 1) :
    decodeText ne 0 (c :: (pre ++ rest)) = ch :: decodeText ne 0 rest := by
  rw [decodeText, h]
  simp only
  rw [← hlen, decodeText_skip]

theorem decodeText_escapeChar (ne : string → Option (Char × Nat)) (aAttrib : Bool) (c : Char)
    (rest : string) :
    decodeText ne 0 (escapeChar aAttrib c ++ rest) = c :: decodeText ne 0 rest := by
  unfold escapeChar
  split_ifs with h1 h2 h3 h4 h5
  · subst h1
    exact decodeText_entity ne '&' '&' 5 "amp;".toList rest (by simp [entityAt]) rfl
  · subst h2
    exact decodeText_entity ne '&' '<' 4 "lt;".toList rest (by simp [entityAt]) rfl
  · subst h3
    exact decodeText_entity ne '&' '>' 4 "gt;".toList rest (by simp [entityAt]) rfl
  · have hc : c = Char.ofNat 39 := by
      simp only [Bool.and_eq_true, beq_iff_eq] at h4
      exact h4.2
    subst hc
    exact decodeText_entity ne '&' (Char.ofNat 39) 6 "apos;".toList rest (by simp [entityAt]) rfl
  · have hc : c = Char.ofNat 34 := by
      simp only [Bool.and_eq_true, beq_iff_eq] at h5
      exact h5.2
    subst hc
    exact decodeText_entity ne '&' (Char.ofNat 34) 6 "quot;".toList rest (by simp [entityAt]) rfl
  · exact decodeText_plain ne c rest h1

theorem decodeText_encodeText (ne : string → Option (Char × Nat)) (aAttrib : Bool) (t : string) :
    decodeText ne 0 (encodeText aAttrib t) = t := by
  induction t with
  | nil => rfl
  | cons c cs ih => rw [encodeText, decodeText_escapeChar, ih]

theorem escape_encoding (ne : string → Option (Char × Nat)) (t : string) (aAttrib : Bool) :
    escape ne t aAttrib false = encodeText aAttrib t := by
  simp [escape]

/-- C4: escaping is inverted by unescaping.  For every text and either mode,
`escape` with `aLoading = false` followed by `escape` with `aLoading = true`
gives the text back; this holds whatever is done with numeric entities. -/
theorem escape_then_unescape (numericEntity : string → Option (Char × Nat)) (t : string)
    (aAttrib : Bool) :
    escape numericEntity (escape numericEntity t aAttrib false) aAttrib true = t := by
  simp only [escape, Bool.false_eq_true, if_false, if_true]
  exact decodeText_encodeText numericEntity aAttrib t

/-! ## Theorems: scanning lemmas -/

theorem decodeText_plain_text (ne : string → Option (Char × Nat)) (t : string)
    (h : '&' ∉ t) : decodeText ne 0 t = t := by
  induction t with
  | nil => rfl
  | cons c cs ih =>
    have hc : c ≠ '&' := fun e => h (e ▸ List.mem_cons_self _ _)
    rw [decodeText_plain ne c cs hc, ih (fun hm => h (List.mem_cons_of_mem _ hm))]

theorem toXML_selfClosing (eol : string) (i : Nat) (attrs : List (string × string))
    (n : string) :
    Tag.toXML eol i (.mk [] attrs n [])
      = indentText i ++ '<' :: (n ++ (Tag.attribText attrs ++ '/' :: '>' :: eol)) := by
  simp [Tag.toXML, Tag.appendAttribString]

theorem toXML_leaf (eol : string) (i : Nat) (attrs : List (string × string))
    (n : string) (c : Char) (d : string) :
    Tag.toXML eol i (.mk [] attrs n (c :: d))
      = indentText i ++ '<' :: (n ++ (Tag.attribText attrs ++ '>' ::
          (encodeText false (c :: d) ++ '<' :: '/' :: (n ++ '>' :: eol)))) := by
  simp [Tag.toXML, Tag.appendAttribString]

theorem toXML_parent (eol : string) (i : Nat) (attrs : List (string × string))
    (n d : string) (c : Tag) (cs : List Tag) :
    Tag.toXML eol i (.mk (c :: cs) attrs n d)
      = indentText i ++ '<' :: (n ++ (Tag.attribText attrs ++ '>' ::
          (eol ++ (Tag.toXMLList eol (i + 1) (c :: cs) ++
            (indentText i ++ '<' :: '/' :: (n ++ '>' :: eol)))))) := by
  simp [Tag.toXML, Tag.appendAttribString]

theorem isTagName_char (n : string) (h : isTagName n = true) :
    n ≠ [] ∧ ∀ x ∈ n, endsTagName x = false ∧ x ≠ '/' := by
  simp only [isTagName, Bool.and_eq_true, Bool.not_eq_true', List.all_eq_true, bne_iff_ne,
    ne_eq] at h
  obtain ⟨hne, hall⟩ := h
  refine ⟨fun e => ?_, ?_⟩
  · rw [e] at hne; cases hne
  intro x hx
  obtain ⟨⟨hr, hw⟩, hs⟩ := hall x hx
  have hgt : x ≠ '>' := by
    rintro rfl
    revert hr; decide
  exact ⟨by simp [endsTagName, hw, hs, hgt], hs⟩

theorem wellFormed_mk (cs : List Tag) (attrs : List (string × string)) (n d : string) :
    Tag.wellFormed (.mk cs attrs n d) = true ↔
      isTagName n = true ∧ attrs.all (fun p => isAttribName p.1 && isPlain p.2) = true ∧
      isPlain d = true ∧ Tag.wellFormedList cs = true := by
  rw [Tag.wellFormed]
  simp only [Bool.and_eq_true]
  tauto

theorem normalList_eq_nil (cs : List Tag) : Tag.normalList cs = [] ↔ cs = [] := by
  cases cs <;> simp [Tag.normalList]

mutual
theorem toXML_normal (eol : string) : ∀ (i : Nat) (t : Tag),
    Tag.toXML eol i t.normal = Tag.toXML eol i t
  | i, .mk cs attrs n d => by
    cases cs with
    | nil => simp [Tag.normal, Tag.normalList]
    | cons c cs =>
      have h := toXMLList_normal eol (i + 1) (c :: cs)
      rw [Tag.normal]
      rw [Tag.normalList] at h ⊢
      rw [toXML_parent, toXML_parent, h]
theorem toXMLList_normal (eol : string) : ∀ (i : Nat) (cs : List Tag),
    Tag.toXMLList eol i (Tag.normalList cs) = Tag.toXMLList eol i cs
  | _, [] => rfl
  | i, c :: cs => by
    rw [Tag.normalList, Tag.toXMLList, Tag.toXMLList, toXML_normal eol i c,
      toXMLList_normal eol i cs]
end

theorem attribText_length (attrs : List (string × string)) :
    attrs.length ≤ (Tag.attribText attrs).length := by
  induction attrs with
  | nil => simp
  | cons p attrs ih =>
    obtain ⟨k, v⟩ := p
    have h1 : " ".toList.length = 1 := rfl
    simp only [Tag.attribText, List.length_append, List.length_cons, h1]
    omega

mutual
theorem need_le_length (eol : string) : ∀ (i : Nat) (t : Tag), t.wellFormed = true →
    t.need + 1 ≤ (Tag.toXML eol i t).length
  | i, .mk cs attrs n d => by
    intro hwf
    obtain ⟨hn, _, _, hcs⟩ := (wellFormed_mk cs attrs n d).mp hwf
    have hn1 : 1 ≤ n.length := by
      have := (isTagName_char n hn).1
      cases n with
      | nil => exact absurd rfl this
      | cons _ _ => simp
    have ha := attribText_length attrs
    rw [Tag.need]
    cases cs with
    | nil =>
      cases d with
      | nil =>
        rw [toXML_selfClosing]
        simp only [Tag.needList, List.length_append, List.length_cons]
        omega
      | cons a d =>
        rw [toXML_leaf]
        simp only [Tag.needList, List.length_append, List.length_cons]
        omega
    | cons c cs =>
      have h := needList_le_length eol (i + 1) (c :: cs) hcs
      rw [toXML_parent]
      simp only [List.length_append, List.length_cons]
      omega
theorem needList_le_length (eol : string) : ∀ (i : Nat) (cs : List Tag),
    Tag.wellFormedList cs = true → Tag.needList cs ≤ (Tag.toXMLList eol i cs).length + 1
  | _, [] => by intro _; simp [Tag.needList]
  | i, c :: cs => by
    intro hwf
    rw [Tag.wellFormedList, Bool.and_eq_true] at hwf
    have h1 := need_le_length eol i c hwf.1
    have h2 := needList_le_length eol i cs hwf.2
    rw [Tag.needList, Tag.toXMLList, List.length_append]
    omega
end

/-! ## Theorems: serialize/parse round trip -/

/-- The parser example of the specification: `<a><b attr="1">hi</b></a>` gives a tag
`a` with the single child `b`, whose attribute `attr` is `1` and whose data is
`hi`. -/
theorem fromXML_nested_example :
    fromXML (fun _ => none) ⟨Tag.mk [] [] [] [], some [], 0, 0, false⟩
        "<a><b attr=\"1\">hi</b></a>".toList
      = .ok ⟨Tag.mk [Tag.mk [Tag.mk [] [("attr".toList, "1".toList)] "b".toList "hi".toList]
                [] "a".toList []] [] [] [], some [], 0, 0, false⟩ := rfl

/-- The self-closing example of the specification: `<a x="1"/>` gives a tag without
children and data that carries the attribute `x`. -/
theorem fromXML_selfClosing_example :
    fromXML (fun _ => none) ⟨Tag.mk [] [] [] [], some [], 0, 0, false⟩ "<a x=\"1\"/>".toList
      = .ok ⟨Tag.mk [Tag.mk [] [("x".toList, "1".toList)] "a".toList []] [] [] [],
          some [], 0, 0, false⟩ := rfl

/-- Data that is all whitespace is content like any other: `<a> </a>` gives a tag
whose data is the blank. -/
theorem fromXML_blank_data_example :
    fromXML (fun _ => none) ⟨Tag.mk [] [] [] [], some [], 0, 0, false⟩ "<a> </a>".toList
      = .ok ⟨Tag.mk [Tag.mk [] [] "a".toList " ".toList] [] [] [], some [], 0, 0, false⟩ := rfl

/-! ## Theorems: the pre-check and its reference; the boolean getter -/

theorem needsEscape_eq_needsEscapeSpec (aString : string) (aAttrib aLoading : Bool) :
    needsEscape aString aAttrib aLoading = needsEscapeSpec aString aAttrib aLoading := by
  rw [Bool.eq_iff_iff]
  cases aLoading
  · simp only [needsEscape, needsEscapeSpec, Bool.false_eq_true, if_false]
    rw [find_first_of_ne_none_iff, List.any_eq_true]
    constructor
    · rintro ⟨c, hc, hm⟩
      refine ⟨c, hc, ?_⟩
      cases aAttrib
      · simp only [Bool.false_eq_true, if_false] at hm
        have : c = '<' ∨ c = '&' ∨ c = '>' := by simpa using hm
        rcases this with rfl | rfl | rfl <;> decide
      · simp only [if_true] at hm
        have : c = '<' ∨ c = '&' ∨ c = '>' ∨ c = Char.ofNat 39 ∨ c = Char.ofNat 34 := by
          simpa using hm
        rcases this with rfl | rfl | rfl | rfl | rfl <;> decide
    · rintro ⟨c, hc, hm⟩
      refine ⟨c, hc, ?_⟩
      simp only [Bool.or_eq_true, Bool.and_eq_true, beq_iff_eq] at hm
      rcases hm with ((rfl | rfl) | rfl) | ⟨rfl, rfl | rfl⟩
      · cases aAttrib <;> decide
      · cases aAttrib <;> decide
      · cases aAttrib <;> decide
      · decide
      · decide
  · simp only [needsEscape, needsEscapeSpec, if_true]
    rw [find_ne_none_iff, List.any_eq_true]
    constructor
    · intro h; exact ⟨'&', h, by simp⟩
    · rintro ⟨c, hc, hm⟩
      have : c = '&' := by simpa using hm
      exact this ▸ hc

theorem needsEscape_encoding_iff (aString : string) (aAttrib : Bool) :
    needsEscape aString aAttrib false = true ↔
      ∃ c ∈ aString, c = '<' ∨ c = '&' ∨ c = '>' ∨
        (aAttrib = true ∧ (c = Char.ofNat 39 ∨ c = Char.ofNat 34)) := by
  rw [needsEscape_eq_needsEscapeSpec]
  simp only [needsEscapeSpec, Bool.false_eq_true, if_false, List.any_eq_true, Bool.or_eq_true,
    Bool.and_eq_true, beq_iff_eq]
  constructor
  · rintro ⟨c, hc, hm⟩
    refine ⟨c, hc, ?_⟩
    tauto
  · rintro ⟨c, hc, hm⟩
    refine ⟨c, hc, ?_⟩
    tauto

theorem needsEscape_decoding_iff (aString : string) (aAttrib : Bool) :
    needsEscape aString aAttrib true = true ↔ '&' ∈ aString := by
  simp only [needsEscape, if_true]
  exact find_ne_none_iff aString '&'

/-- C6: `needsEscape` equals its reference definition.  It agrees with
`needsEscapeSpec` on every input; when encoding it is true exactly when the
text contains `<`, `&` or `>`, or a quote in attribute mode, so that a text
whose only reserved characters are quotes is not flagged in element mode and is
flagged in attribute mode; when decoding it is true exactly when the text
contains `&`, whatever `aAttrib` is. -/
theorem needsEscape_reference (aString : string) (aAttrib : Bool) :
    (∀ aLoading, needsEscape aString aAttrib aLoading = needsEscapeSpec aString aAttrib aLoading) ∧
    (needsEscape aString aAttrib false = true ↔
      ∃ c ∈ aString, c = '<' ∨ c = '&' ∨ c = '>' ∨
        (aAttrib = true ∧ (c = Char.ofNat 39 ∨ c = Char.ofNat 34))) ∧
    ((∀ c ∈ aString, c ≠ '<' ∧ c ≠ '&' ∧ c ≠ '>') →
      (∃ c ∈ aString, c = Char.ofNat 39 ∨ c = Char.ofNat 34) →
      needsEscape aString false false = false ∧ needsEscape aString true false = true) ∧
    (needsEscape aString aAttrib true = true ↔ '&' ∈ aString) := by
  refine ⟨fun l => needsEscape_eq_needsEscapeSpec aString aAttrib l,
    needsEscape_encoding_iff aString aAttrib, ?_, needsEscape_decoding_iff aString aAttrib⟩
  intro hplain hquote
  constructor
  · rw [Bool.eq_false_iff]
    intro h
    rw [needsEscape_encoding_iff] at h
    obtain ⟨c, hc, hm⟩ := h
    have := hplain c hc
    rcases hm with h | h | h | ⟨h, _⟩
    · exact this.1 h
    · exact this.2.1 h
    · exact this.2.2 h
    · cases h
  · rw [needsEscape_encoding_iff]
    obtain ⟨c, hc, hm⟩ := hquote
    exact ⟨c, hc, Or.inr (Or.inr (Or.inr ⟨rfl, hm⟩))⟩

/-- Witness of C6: the text `a"b`, whose only reserved character is a quote. -/
theorem needsEscape_reference_witness :
    needsEscape "a\"b".toList false false = false ∧ needsEscape "a\"b".toList true false = true :=
  (needsEscape_reference "a\"b".toList false).2.2.1 (by decide) ⟨Char.ofNat 34, by decide, Or.inr rfl⟩

/-- C7, as stated, fails: the stored text `10` is not `1`, yet the boolean getter
returns true for it. -/
theorem getBoolChildAttrib_not_exactly_one :
    SimpleXML.getChildAttrib
        ⟨Tag.mk [Tag.mk [] [("x".toList, "10".toList)] "c".toList []] [] [] [], some [], 0, 0, false⟩
        "x".toList Util.emptyString = .ok "10".toList ∧
    "10".toList ≠ "1".toList ∧
    SimpleXML.getBoolChildAttrib
        ⟨Tag.mk [Tag.mk [] [("x".toList, "10".toList)] "c".toList []] [] [] [], some [], 0, 0, false⟩
        "x".toList = .ok true := by
  refine ⟨rfl, by decide, rfl⟩

/-- C7, amended: on a selected child the boolean getter succeeds, and it returns
true exactly when the text found by the lookup (the value of the first
attribute of that name) begins with the character `1`; a text that is empty or
begins with another character, and a missing attribute, give false. -/
theorem getBoolChildAttrib_first_char (s : SimpleXML) (cur child : Tag) (aName : string)
    (hcur : s.currentTag = some cur) (hchild : cur.children[s.currentChild]? = some child) :
    s.getBoolChildAttrib aName
        = .ok ((child.getAttrib aName Util.emptyString).head? == some '1') ∧
    (s.getBoolChildAttrib aName = .ok true ↔
        ∃ rest, child.getAttrib aName Util.emptyString = '1' :: rest) ∧
    ((∀ p ∈ child.attribs, p.1 ≠ aName) → s.getBoolChildAttrib aName = .ok false) := by
  have hlt : s.currentChild < cur.children.length := by
    by_contra hge
    rw [List.getElem?_eq_none (by omega)] at hchild
    cases hchild
  have hne : s.currentChild ≠ cur.children.length := by omega
  have hget := getChildAttrib_of_selected s cur child aName Util.emptyString hcur hchild
  have hmain : s.getBoolChildAttrib aName
      = .ok ((child.getAttrib aName Util.emptyString).head? == some '1') := by
    simp only [getBoolChildAttrib, hget, checkChildSelected, hcur, hne, if_false, bind,
      Except.bind, pure, Except.pure]
    cases h : child.getAttrib aName Util.emptyString with
    | nil => simp
    | cons c rest => simp
  refine ⟨hmain, ?_, ?_⟩
  · rw [hmain]
    cases h : child.getAttrib aName Util.emptyString with
    | nil => simp
    | cons c rest => simp
  · intro habs
    rw [hmain, getAttrib_eq_default_of_absent child aName Util.emptyString habs]
    rfl

/-- Witness of amended C7: the stored text `1` is read back as true. -/
theorem getBoolChildAttrib_first_char_witness :
    SimpleXML.getBoolChildAttrib
        ⟨Tag.mk [Tag.mk [] [("x".toList, "1".toList)] "c".toList []] [] [] [], some [], 0, 0, false⟩
        "x".toList = .ok true :=
  (getBoolChildAttrib_first_char
    ⟨Tag.mk [Tag.mk [] [("x".toList, "1".toList)] "c".toList []] [] [] [], some [], 0, 0, false⟩
    (Tag.mk [Tag.mk [] [("x".toList, "1".toList)] "c".toList []] [] [] [])
    (Tag.mk [] [("x".toList, "1".toList)] "c".toList []) "x".toList rfl rfl).1

/-! ## Theorems: reading the selected child, resetting the scan, serializing -/

/-- C8: `getChildData` and `getChildAttrib` read from the tag at the child-scan
position and fail exactly when no child is selected.  With `current` defined
and the position within `current`'s children or at their end: at the end both
calls fail on the assertion; anywhere else there is a child at the position,
`getChildData` returns its data and `getChildAttrib` returns its `getAttrib`.
In particular both fail whenever `current` has no children, as in a document
that holds no tag yet, and right after `resetCurrentChild` on a childless tag. -/
theorem getChild_reads_selected (s : SimpleXML) (cur : Tag) (aName aDefault : string)
    (hcur : s.currentTag = some cur) (hvalid : s.currentChild ≤ cur.children.length) :
    (s.currentChild = cur.children.length →
      s.getChildData = .error .assertion ∧
      s.getChildAttrib aName aDefault = .error .assertion) ∧
    (s.currentChild ≠ cur.children.length →
      ∃ child, cur.children[s.currentChild]? = some child ∧
        s.getChildData = .ok child.data ∧
        s.getChildAttrib aName aDefault = .ok (child.getAttrib aName aDefault)) ∧
    (cur.children = [] →
      s.getChildData = .error .assertion ∧
      s.getChildAttrib aName aDefault = .error .assertion) ∧
    (cur.children = [] →
      ∃ s', s.resetCurrentChild = .ok s' ∧
        s'.getChildData = .error .assertion ∧
        s'.getChildAttrib aName aDefault = .error .assertion) := by
  have hatEnd : s.currentChild = cur.children.length →
      s.getChildData = .error .assertion ∧
      s.getChildAttrib aName aDefault = .error .assertion := by
    intro hend
    simp [getChildData, getChildAttrib, checkChildSelected, hcur, hend, bind, Except.bind]
  have hchildless : cur.children = [] →
      s.getChildData = .error .assertion ∧
      s.getChildAttrib aName aDefault = .error .assertion := by
    intro hnil
    apply hatEnd
    rw [hnil] at hvalid ⊢
    simpa using hvalid
  refine ⟨hatEnd, ?_, hchildless, ?_⟩
  · intro hne
    have hlt : s.currentChild < cur.children.length := by omega
    refine ⟨cur.children[s.currentChild], List.getElem?_eq_getElem hlt, ?_, ?_⟩
    · exact getChildData_of_selected s cur _ hcur (List.getElem?_eq_getElem hlt)
    · exact getChildAttrib_of_selected s cur _ aName aDefault hcur (List.getElem?_eq_getElem hlt)
  · intro hnil
    refine ⟨{ s with found := false, currentChild := 0 }, ?_, ?_, ?_⟩
    · simp [resetCurrentChild, hcur]
    · have hcur' : currentTag { s with found := false, currentChild := 0 } = some cur := hcur
      simp [getChildData, checkChildSelected, hcur', hnil, bind, Except.bind]
    · have hcur' : currentTag { s with found := false, currentChild := 0 } = some cur := hcur
      simp [getChildAttrib, checkChildSelected, hcur', hnil, bind, Except.bind]

/-- Witness of C8: a root with the single child `c` holding `data`, the position on
that child. -/
theorem getChild_reads_selected_witness :
    ∃ child, [Tag.mk [] [] "c".toList "data".toList][0]? = some child ∧
      SimpleXML.getChildData
        ⟨Tag.mk [Tag.mk [] [] "c".toList "data".toList] [] [] [], some [], 0, 0, false⟩
        = .ok child.data ∧
      SimpleXML.getChildAttrib
        ⟨Tag.mk [Tag.mk [] [] "c".toList "data".toList] [] [] [], some [], 0, 0, false⟩
        "k".toList "d".toList = .ok (child.getAttrib "k".toList "d".toList) :=
  (getChild_reads_selected
    ⟨Tag.mk [Tag.mk [] [] "c".toList "data".toList] [] [] [], some [], 0, 0, false⟩
    (Tag.mk [Tag.mk [] [] "c".toList "data".toList] [] [] []) "k".toList "d".toList rfl
    (by decide)).2.1 (by decide)

/-- C9: `resetCurrentChild` resets only the scan state.  With `current` defined the
call succeeds; afterwards the child-scan position is the start of `current`'s
children (the first child if there is one, the end if there is none), `found`
is false, and `current`, `root` (the whole tree) and `attribs` are unchanged. -/
theorem resetCurrentChild_frame (s : SimpleXML) (cur : Tag) (hcur : s.currentTag = some cur) :
    ∃ s', s.resetCurrentChild = .ok s' ∧
      s'.currentChild = 0 ∧
      cur.children[s'.currentChild]? = cur.children.head? ∧
      (cur.children = [] → s'.currentChild = cur.children.length) ∧
      s'.found = false ∧
      s'.current = s.current ∧ s'.root = s.root ∧ s'.attribs = s.attribs ∧
      s'.currentTag = some cur := by
  refine ⟨{ s with found := false, currentChild := 0 }, ?_, rfl, ?_, ?_, rfl, rfl, rfl, rfl, hcur⟩
  · simp [resetCurrentChild, hcur]
  · cases cur.children <;> simp
  · intro h; simp [h]

/-- Witness of C9: the scan position 1 with `found` set, on a root with one child. -/
theorem resetCurrentChild_frame_witness :
    ∃ s', SimpleXML.resetCurrentChild
        ⟨Tag.mk [Tag.mk [] [] "c".toList []] [] [] [], some [], 1, 0, true⟩ = .ok s' ∧
      s'.currentChild = 0 ∧ s'.found = false ∧
      s'.root = Tag.mk [Tag.mk [] [] "c".toList []] [] [] [] ∧ s'.current = some [] := by
  obtain ⟨s', h1, h2, _, _, h5, h6, h7, _, _⟩ := resetCurrentChild_frame
    ⟨Tag.mk [Tag.mk [] [] "c".toList []] [] [] [], some [], 1, 0, true⟩
    (Tag.mk [Tag.mk [] [] "c".toList []] [] [] []) rfl
  exact ⟨s', h1, h2, h5, h7, h6⟩

/-- C10: document serialization never emits the synthetic root.  `toXML` is the
empty text when `root` has no children and otherwise exactly the serialization
of `root`'s first child at indent level 0; two documents with the same first
top-level child serialize alike, whatever their cursors, their further
top-level children and the fields of their roots. -/
theorem toXML_first_child (eol : string) (s : SimpleXML) :
    (s.root.children = [] → s.toXML eol = []) ∧
    (∀ c rest, s.root.children = c :: rest → s.toXML eol = c.toXML eol 0) ∧
    (∀ s' : SimpleXML, s'.root.children.head? = s.root.children.head? →
      s'.toXML eol = s.toXML eol) := by
  have key : ∀ x : SimpleXML, x.toXML eol =
      match x.root.children.head? with
      | none => []
      | some c => c.toXML eol 0 := by
    intro x
    unfold toXML
    cases x.root.children with
    | nil => rfl
    | cons c rest => simp
  refine ⟨?_, ?_, ?_⟩
  · intro h; rw [key, h]; rfl
  · intro c rest h; rw [key, h]; rfl
  · intro s' h; rw [key, key, h]

/-- Witness of C10: a document with two top-level children and the cursor below the
root serializes as its first top-level child does. -/
theorem toXML_first_child_witness :
    SimpleXML.toXML "\n".toList
        ⟨Tag.mk [Tag.mk [] [] "a".toList [], Tag.mk [] [] "b".toList []] [] [] [],
          some [1], 0, 0, true⟩
      = Tag.toXML "\n".toList 0 (Tag.mk [] [] "a".toList []) :=
  (toXML_first_child "\n".toList
    ⟨Tag.mk [Tag.mk [] [] "a".toList [], Tag.mk [] [] "b".toList []] [] [] [],
      some [1], 0, 0, true⟩).2.1 _ _ rfl

/-! ## Theorems: the pre-check against `escape`, over concatenation and over its flags -/

theorem encodeText_of_not_needsEscape (text : string) (aAttrib : Bool)
    (h : needsEscape text aAttrib false = false) : encodeText aAttrib text = text := by
  induction text with
  | nil => rfl
  | cons c cs ih =>
    have hnone : ∀ x ∈ c :: cs, ¬ (x = '<' ∨ x = '&' ∨ x = '>' ∨
        (aAttrib = true ∧ (x = Char.ofNat 39 ∨ x = Char.ofNat 34))) := by
      intro x hx hsp
      have := (needsEscape_encoding_iff (c :: cs) aAttrib).mpr ⟨x, hx, hsp⟩
      rw [h] at this
      cases this
    have hcs : needsEscape cs aAttrib false = false := by
      rw [Bool.eq_false_iff]
      intro hn
      obtain ⟨x, hx, hsp⟩ := (needsEscape_encoding_iff cs aAttrib).mp hn
      exact hnone x (List.mem_cons_of_mem _ hx) hsp
    have hc := hnone c (List.mem_cons_self _ _)
    simp only [not_or, not_and] at hc
    obtain ⟨h1, h2, h3, h4⟩ := hc
    rw [encodeText, ih hcs]
    cases aAttrib with
    | false => simp [escapeChar, h1, h2, h3]
    | true =>
      have h5 := h4 rfl
      simp only [not_or] at h5
      simp [escapeChar, h1, h2, h3, h5.1, h5.2]

/-- C12: a false answer of the pre-check is reliable.  For every text and every
combination of the flags, when `needsEscape` is false `escape` returns the text
unchanged, whatever is done with numeric entities. -/
theorem escape_of_not_needsEscape (numericEntity : string → Option (Char × Nat))
    (text : string) (aAttrib aLoading : Bool)
    (h : needsEscape text aAttrib aLoading = false) :
    escape numericEntity text aAttrib aLoading = text := by
  cases aLoading with
  | false =>
    simp only [escape, Bool.false_eq_true, if_false]
    exact encodeText_of_not_needsEscape text aAttrib h
  | true =>
    simp only [escape, if_true]
    apply decodeText_plain_text
    intro hm
    rw [(needsEscape_decoding_iff text aAttrib).mpr hm] at h
    cases h

/-- Witness of C12: the text `a'b` in element mode, where quotes are not escaped. -/
theorem escape_of_not_needsEscape_witness :
    needsEscape "a'b".toList false false = false ∧
    escape (fun _ => none) "a'b".toList false false = "a'b".toList :=
  ⟨by decide, escape_of_not_needsEscape (fun _ => none) "a'b".toList false false (by decide)⟩

theorem decodeText_of_no_entity (ne : string → Option (Char × Nat)) (text : string)
    (h : ∀ suffix, suffix <:+ text → entityAt ne suffix = none) :
    decodeText ne 0 text = text := by
  induction text with
  | nil => rfl
  | cons c cs ih =>
    have hhead : entityAt ne (c :: cs) = none := h _ (List.suffix_refl _)
    have htail : ∀ suffix, suffix <:+ cs → entityAt ne suffix = none :=
      fun suffix hs => h suffix (hs.trans (List.suffix_cons c cs))
    rw [decodeText, hhead]
    simp only
    rw [ih htail]

/-- C16: the pre-check is a strict over-approximation.  There is a text and a mode in
which `needsEscape` is true although `escape` leaves the text unchanged: the
text `a&b` when decoding.  More generally, when decoding, every text that
contains an `&` but no recognised entity is flagged and left unchanged. -/
theorem needsEscape_over_approximates :
    (∃ text aAttrib aLoading, needsEscape text aAttrib aLoading = true ∧
      ∀ numericEntity, escape numericEntity text aAttrib aLoading = text) ∧
    (∀ (numericEntity : string → Option (Char × Nat)) (text : string) (aAttrib : Bool),
      '&' ∈ text → (∀ suffix, suffix <:+ text → entityAt numericEntity suffix = none) →
      needsEscape text aAttrib true = true ∧ escape numericEntity text aAttrib true = text) := by
  have hgen : ∀ (numericEntity : string → Option (Char × Nat)) (text : string) (aAttrib : Bool),
      '&' ∈ text → (∀ suffix, suffix <:+ text → entityAt numericEntity suffix = none) →
      needsEscape text aAttrib true = true ∧ escape numericEntity text aAttrib true = text := by
    intro ne text aAttrib hamp hno
    refine ⟨(needsEscape_decoding_iff text aAttrib).mpr hamp, ?_⟩
    simp only [escape, if_true]
    exact decodeText_of_no_entity ne text hno
  refine ⟨⟨"a&b".toList, false, true, by decide, ?_⟩, hgen⟩
  intro ne
  refine (hgen ne "a&b".toList false (by decide) ?_).2
  intro suffix hs
  have hcases : suffix = "a&b".toList ∨ suffix = "&b".toList ∨ suffix = "b".toList
      ∨ suffix = [] := by
    have h0 : suffix <:+ ['a', '&', 'b'] := hs
    simp only [List.suffix_cons_iff, List.suffix_nil] at h0
    rcases h0 with h | h | h | h
    · exact Or.inl h
    · exact Or.inr (Or.inl h)
    · exact Or.inr (Or.inr (Or.inl h))
    · exact Or.inr (Or.inr (Or.inr h))
  rcases hcases with rfl | rfl | rfl | rfl <;> simp [entityAt]

/-- Witness of C16: the text `&y` when decoding in attribute mode. -/
theorem needsEscape_over_approximates_witness :
    needsEscape "&y".toList true true = true ∧
    escape (fun _ => none) "&y".toList true true = "&y".toList :=
  needsEscape_over_approximates.2 (fun _ => none) "&y".toList true (by decide)
    (by
      intro suffix hs
      have h0 : suffix <:+ ['&', 'y'] := hs
      simp only [List.suffix_cons_iff, List.suffix_nil] at h0
      rcases h0 with rfl | rfl | rfl <;> simp [entityAt])

/-- C18: `needsEscape` distributes over concatenation.  For all texts and flags the
pre-check of `s ++ t` is the disjunction of the pre-checks of `s` and of `t`,
and the pre-check of the empty text is false. -/
theorem needsEscape_append (s t : string) (aAttrib aLoading : Bool) :
    needsEscape (s ++ t) aAttrib aLoading
      = (needsEscape s aAttrib aLoading || needsEscape t aAttrib aLoading) ∧
    needsEscape [] aAttrib aLoading = false := by
  constructor
  · simp only [needsEscape_eq_needsEscapeSpec, needsEscapeSpec]
    cases aLoading <;> simp [List.any_append]
  · cases aLoading <;> cases aAttrib <;> rfl

/-- C19: `needsEscape` is monotone in its mode flags.  A text flagged for encoding in
element mode is flagged for encoding in attribute mode, and a text flagged for
decoding in any mode is flagged for encoding in any mode. -/
theorem needsEscape_monotone (text : string) :
    (needsEscape text false false = true → needsEscape text true false = true) ∧
    (∀ a a', needsEscape text a true = true → needsEscape text a' false = true) := by
  constructor
  · intro h
    obtain ⟨c, hc, hsp⟩ := (needsEscape_encoding_iff text false).mp h
    refine (needsEscape_encoding_iff text true).mpr ⟨c, hc, ?_⟩
    rcases hsp with h1 | h1 | h1 | ⟨h1, _⟩
    · exact Or.inl h1
    · exact Or.inr (Or.inl h1)
    · exact Or.inr (Or.inr (Or.inl h1))
    · cases h1
  · intro a a' h
    have hamp := (needsEscape_decoding_iff text a).mp h
    exact (needsEscape_encoding_iff text a').mpr ⟨'&', hamp, Or.inr (Or.inl rfl)⟩

/-- Witness of C19: the text `a&b`, flagged in every mode. -/
theorem needsEscape_monotone_witness :
    needsEscape "a&b".toList true false = true ∧ needsEscape "a&b".toList false false = true :=
  ⟨(needsEscape_monotone "a&b".toList).1 (by decide),
   (needsEscape_monotone "a&b".toList).2 true false (by decide)⟩

/-! ## Theorems: writing into the tree; adding attributes -/

theorem descend_append (t : Tag) (p q : List Nat) :
    Tag.descend t (p ++ q) = (Tag.descend t p).bind (fun x => Tag.descend x q) := by
  induction p generalizing t with
  | nil => rfl
  | cons i p ih =>
    simp only [List.cons_append, Tag.descend]
    cases t.children[i]? with
    | none => rfl
    | some c => exact ih c

theorem children_mk (cs : List Tag) (attrs : List (string × string)) (n d : string) :
    (Tag.mk cs attrs n d).children = cs := rfl

theorem descend_modify (f : Tag → Tag) (p : List Nat) (t x : Tag)
    (h : Tag.descend t p = some x) : Tag.descend (Tag.modify f p t) p = some (f x) := by
  induction p generalizing t with
  | nil =>
    simp only [Tag.descend, Option.some.injEq] at h
    rw [Tag.modify, Tag.descend, h]
  | cons i p ih =>
    rw [Tag.descend] at h
    cases hc : t.children[i]? with
    | none => rw [hc] at h; cases h
    | some c =>
      rw [hc] at h
      have hi : i < t.children.length := by
        by_contra hge
        rw [List.getElem?_eq_none (by omega)] at hc
        cases hc
      rw [Tag.modify, hc]
      simp only [Tag.descend, children_mk, List.getElem?_set_self hi]
      exact ih c h

theorem attribs_addAttribute (t : Tag) (k v : string) :
    (t.addAttribute k v).attribs = t.attribs ++ [(k, v)] := rfl

theorem getAttrib_addAttribute_present (t : Tag) (k v d : string)
    (h : ∃ p ∈ t.attribs, p.1 = k) : (t.addAttribute k v).getAttrib k d = t.getAttrib k d := by
  obtain ⟨p, hp, hk⟩ := h
  unfold Tag.getAttrib
  rw [attribs_addAttribute, List.find?_append]
  cases hfind : t.attribs.find? (Tag.CompareFirst k) with
  | none =>
    rw [List.find?_eq_none] at hfind
    have := hfind p hp
    simp [Tag.CompareFirst, hk] at this
  | some q => rfl

theorem getAttrib_addAttribute_absent (t : Tag) (k v d : string)
    (h : ∀ p ∈ t.attribs, p.1 ≠ k) : (t.addAttribute k v).getAttrib k d = v := by
  unfold Tag.getAttrib
  have hnone : t.attribs.find? (Tag.CompareFirst k) = none := by
    rw [List.find?_eq_none]
    intro p hp
    simp [Tag.CompareFirst, h p hp]
  rw [attribs_addAttribute, List.find?_append, hnone]
  simp [Tag.CompareFirst]

theorem getAttrib_addAttribute_other (t : Tag) (k v k' d : string) (h : k' ≠ k) :
    (t.addAttribute k v).getAttrib k' d = t.getAttrib k' d := by
  unfold Tag.getAttrib
  rw [attribs_addAttribute, List.find?_append]
  have hlast : [(k, v)].find? (Tag.CompareFirst k') = none := by
    simp [Tag.CompareFirst, Ne.symm h]
  rw [hlast]
  cases t.attribs.find? (Tag.CompareFirst k') <;> rfl

theorem addAttrib_of_current (s : SimpleXML) (cur : Tag) (k v : string)
    (hcur : s.currentTag = some cur) :
    (s.addAttrib k v).1 = .ok () ∧
    (s.addAttrib k v).2.currentTag = some (cur.addAttribute k v) ∧
    (s.addAttrib k v).2.current = s.current ∧
    (s.addAttrib k v).2.currentChild = s.currentChild ∧
    (s.addAttrib k v).2.found = s.found := by
  unfold currentTag at hcur
  cases hp : s.current with
  | none => rw [hp] at hcur; cases hcur
  | some path =>
    rw [hp] at hcur
    simp only at hcur
    simp only [addAttrib, hp, hcur, currentTag, true_and]
    exact ⟨descend_modify _ path s.root cur hcur, by trivial⟩

/-- C11: adding an attribute appends and never replaces.  On every tag the attribute
list after `addAttribute(k, v)` is the old list followed by `(k, v)`; the
lookup of `k` gives what it gave before when `k` was present and gives `v`
when `k` was absent, and the lookup of every other key is unchanged.
`SimpleXML::addAttrib` does this to the tag `current` points to. -/
theorem addAttrib_appends (t : Tag) (k v : string) :
    (t.addAttribute k v).attribs = t.attribs ++ [(k, v)] ∧
    (∀ d, (∃ p ∈ t.attribs, p.1 = k) → (t.addAttribute k v).getAttrib k d = t.getAttrib k d) ∧
    (∀ d, (∀ p ∈ t.attribs, p.1 ≠ k) → (t.addAttribute k v).getAttrib k d = v) ∧
    (∀ k' d, k' ≠ k → (t.addAttribute k v).getAttrib k' d = t.getAttrib k' d) ∧
    (∀ s : SimpleXML, s.currentTag = some t →
      (s.addAttrib k v).1 = .ok () ∧
      (s.addAttrib k v).2.currentTag = some (t.addAttribute k v)) :=
  ⟨rfl, fun d h => getAttrib_addAttribute_present t k v d h,
    fun d h => getAttrib_addAttribute_absent t k v d h,
    fun k' d h => getAttrib_addAttribute_other t k v k' d h,
    fun s h => ⟨(addAttrib_of_current s t k v h).1, (addAttrib_of_current s t k v h).2.1⟩⟩

/-- Witness of C11: the key `a` is added a second time to `[("a","1")]`; the lookup
still gives `1`. -/
theorem addAttrib_appends_witness :
    ((Tag.mk [] [("a".toList, "1".toList)] "t".toList []).addAttribute
        "a".toList "2".toList).getAttrib "a".toList Util.emptyString
      = (Tag.mk [] [("a".toList, "1".toList)] "t".toList []).getAttrib
          "a".toList Util.emptyString ∧
    (addAttrib ⟨Tag.mk [] [("a".toList, "1".toList)] "t".toList [], some [], 0, 0, false⟩
        "a".toList "2".toList).2.currentTag
      = some (Tag.mk [] [("a".toList, "1".toList), ("a".toList, "2".toList)] "t".toList []) :=
  ⟨(addAttrib_appends (Tag.mk [] [("a".toList, "1".toList)] "t".toList [])
      "a".toList "2".toList).2.1 Util.emptyString ⟨("a".toList, "1".toList), by simp [Tag.attribs], rfl⟩,
   ((addAttrib_appends (Tag.mk [] [("a".toList, "1".toList)] "t".toList [])
      "a".toList "2".toList).2.2.2.2
      ⟨Tag.mk [] [("a".toList, "1".toList)] "t".toList [], some [], 0, 0, false⟩ rfl).2⟩

/-! ## Theorems: stepping out, finding a child, boolean attributes -/

theorem descend_parent (t cur : Tag) (path : List Nat) (i : Nat)
    (h : Tag.descend t (path ++ [i]) = some cur) :
    ∃ parent, Tag.descend t path = some parent ∧ parent.children[i]? = some cur := by
  rw [descend_append] at h
  cases hp : Tag.descend t path with
  | none => rw [hp] at h; cases h
  | some parent =>
    rw [hp] at h
    refine ⟨parent, rfl, ?_⟩
    simp only [Option.bind, Tag.descend] at h
    cases hc : parent.children[i]? with
    | none => rw [hc] at h; cases h
    | some c =>
      rw [hc] at h
      exact h

theorem stepOut_of_concat (s : SimpleXML) (path : List Nat) (i : Nat)
    (h : s.current = some (path ++ [i])) :
    s.stepOut = (.ok (), { s with current := some path, currentChild := 0, found := false }) := by
  unfold stepOut
  rw [h]
  cases hp : path ++ [i] with
  | nil => simp at hp
  | cons j rest =>
    simp only
    rw [← hp, List.dropLast_concat]

/-- C13: stepping out of the document fails.  When `current` is the root, `stepOut`
fails with `SimpleXMLException` and the document, `current` included, is as it
was.  When `current` is a tag below the root, `stepOut` succeeds, `current`
becomes the path to its parent, of which the old current tag is a child, and
the tree is unchanged. -/
theorem stepOut_moves_to_parent (s : SimpleXML) :
    (s.current = some [] →
      s.stepOut = (.error .SimpleXMLException, s) ∧ (s.stepOut).2.current = some []) ∧
    (∀ (path : List Nat) (cur : Tag), s.current = some path → path ≠ [] →
      s.currentTag = some cur →
      (s.stepOut).1 = .ok () ∧
      (s.stepOut).2.current = some path.dropLast ∧
      (s.stepOut).2.root = s.root ∧
      ∃ parent, (s.stepOut).2.currentTag = some parent ∧ cur ∈ parent.children) := by
  constructor
  · intro h
    have : s.stepOut = (.error .SimpleXMLException, s) := by
      unfold stepOut
      rw [h]
    rw [this]
    exact ⟨rfl, h⟩
  · intro path cur hpath hne hcur
    obtain ⟨q, i, rfl⟩ : ∃ q i, path = q ++ [i] :=
      ⟨path.dropLast, path.getLast hne, (List.dropLast_append_getLast hne).symm⟩
    rw [stepOut_of_concat s q i hpath, List.dropLast_concat]
    refine ⟨rfl, rfl, rfl, ?_⟩
    unfold currentTag at hcur
    rw [hpath] at hcur
    obtain ⟨parent, hparent, hchild⟩ := descend_parent s.root cur q i hcur
    exact ⟨parent, hparent, List.getElem?_mem hchild⟩

/-- Witness of C13: the cursor on the first top-level tag steps out to the root. -/
theorem stepOut_moves_to_parent_witness :
    (stepOut ⟨Tag.mk [Tag.mk [] [] "a".toList []] [] [] [], some [0], 0, 0, false⟩).1 = .ok () ∧
    (stepOut ⟨Tag.mk [Tag.mk [] [] "a".toList []] [] [] [], some [0], 0, 0, false⟩).2.current
      = some [] ∧
    (stepOut (init 0)).1 = .error .SimpleXMLException := by
  obtain ⟨h1, h2, _, _⟩ :=
    (stepOut_moves_to_parent
      ⟨Tag.mk [Tag.mk [] [] "a".toList []] [] [] [], some [0], 0, 0, false⟩).2 [0]
      (Tag.mk [] [] "a".toList []) rfl (by simp) rfl
  have h3 := ((stepOut_moves_to_parent (init 0)).1 rfl).1
  exact ⟨h1, h2, by rw [h3]⟩

theorem stepIn_of_child (s : SimpleXML) (cur first : Tag) (rest : List Tag)
    (hcur : s.currentTag = some cur) (hfirst : cur.children = first :: rest) :
    (s.stepIn).1 = .ok () ∧
    (s.stepIn).2.currentTag = some first ∧
    (s.stepIn).2.currentChild = 0 ∧ (s.stepIn).2.found = false ∧
    (s.stepIn).2.root = s.root := by
  unfold currentTag at hcur
  cases hp : s.current with
  | none => rw [hp] at hcur; cases hcur
  | some path =>
    rw [hp] at hcur
    simp only at hcur
    simp only [stepIn, hp, hcur, hfirst, List.isEmpty_cons, Bool.false_eq_true, if_false,
      currentTag, true_and, and_true]
    rw [descend_append, hcur]
    simp [Tag.descend, hfirst]

theorem findChild_first_match (s : SimpleXML) (cur child : Tag) (pre post : List Tag)
    (hcur : s.currentTag = some cur) (hscan : s.currentChild = 0) (hfound : s.found = false)
    (hchildren : cur.children = pre ++ child :: post)
    (hpre : ∀ c ∈ pre, c.name ≠ child.name) :
    (s.findChild child.name).1 = .ok true ∧
    (s.findChild child.name).2.currentTag = some cur ∧
    (s.findChild child.name).2.currentChild = pre.length ∧
    (s.findChild child.name).2.found = true := by
  have hidx : (pre ++ child :: post).findIdx? (fun c => c.name == child.name)
      = some pre.length := by
    have hnone : pre.findIdx? (fun c => c.name == child.name) = none := by
      rw [List.findIdx?_eq_none_iff]
      intro c hc
      simp [hpre c hc]
    rw [List.findIdx?_append, hnone]
    simp [List.findIdx?_cons]
  simp only [findChild, hcur, hfound, hscan, hchildren, Bool.false_and, Bool.false_eq_true,
    if_false, List.drop_zero, hidx, zero_add, true_and, and_true]
  exact hcur

/-- C14: cursor navigation reaches stored data.  Let the first child of `current` (the
root tag, with `current` at the document root) have a child named `n` with data
`d` in front of which no child has that name, in particular let it be its only
child.  Then `stepIn` succeeds, `findChild(n)` returns true and `getChildData`
returns `d`. -/
theorem findChild_reaches_data (s : SimpleXML) (cur first child : Tag)
    (rest pre post : List Tag)
    (hcur : s.currentTag = some cur) (hfirst : cur.children = first :: rest)
    (hchildren : first.children = pre ++ child :: post)
    (hpre : ∀ c ∈ pre, c.name ≠ child.name) :
    (s.stepIn).1 = .ok () ∧
    (findChild (s.stepIn).2 child.name).1 = .ok true ∧
    getChildData (findChild (s.stepIn).2 child.name).2 = .ok child.data := by
  obtain ⟨h1, h2, h3, h4, _⟩ := stepIn_of_child s cur first rest hcur hfirst
  obtain ⟨f1, f2, f3, _⟩ :=
    findChild_first_match (s.stepIn).2 first child pre post h2 h3 h4 hchildren hpre
  refine ⟨h1, f1, ?_⟩
  apply getChildData_of_selected _ first child f2
  rw [f3, hchildren, List.getElem?_append_right (le_refl _)]
  simp

/-- Witness of C14, the instance of the specification: the document built by `addTag`
as a root tag with the child `child` holding `data`. -/
theorem findChild_reaches_data_witness :
    (stepIn (stepOut (addTag (stepIn (addTag (init 0) "root".toList []).2).2
        "child".toList "data".toList).2).2).1 = .ok () ∧
    (findChild (stepIn (stepOut (addTag (stepIn (addTag (init 0) "root".toList []).2).2
        "child".toList "data".toList).2).2).2 "child".toList).1 = .ok true ∧
    getChildData (findChild (stepIn (stepOut (addTag (stepIn (addTag (init 0)
        "root".toList []).2).2 "child".toList "data".toList).2).2).2 "child".toList).2
      = .ok "data".toList :=
  findChild_reaches_data
    (stepOut (addTag (stepIn (addTag (init 0) "root".toList []).2).2
        "child".toList "data".toList).2).2
    (Tag.mk [Tag.mk [Tag.mk [] [] "child".toList "data".toList] [] "root".toList []] [] [] [])
    (Tag.mk [Tag.mk [] [] "child".toList "data".toList] [] "root".toList [])
    (Tag.mk [] [] "child".toList "data".toList) [] [] [] rfl rfl rfl (by simp)

end SimpleXML
